import Mathlib

/-!
Shallow embedding of `src/components/Editor.tsx`: the keyboard command engine
of the editor (Tab / Shift+Tab indentation, Enter auto-indent, closing-brace
auto-dedent).  Buffers are `List Char`; a textarea state is a buffer together
with a selection range.  `document.execCommand("insertText", ...)` replaces
the current selection with the given text and leaves a collapsed caret right
after it.  `setSelectionRange` follows the WHATWG algorithm: its IDL
arguments are `unsigned long`, so a negative JavaScript number wraps modulo
2^32 to a huge value; every argument is clamped to the buffer length, and
when the (clamped) end is at most the (clamped) start the selection collapses
at the end.
-/

/-- The JavaScript regular-expression class `\s`: ECMA-262 WhiteSpace and
LineTerminator code points. -/
def jsWhitespace (c : Char) : Bool :=
  decide (c.toNat = 0x9 ∨ c.toNat = 0xA ∨ c.toNat = 0xB ∨ c.toNat = 0xC ∨
    c.toNat = 0xD ∨ c.toNat = 0x20 ∨ c.toNat = 0xA0 ∨ c.toNat = 0x1680 ∨
    (0x2000 ≤ c.toNat ∧ c.toNat ≤ 0x200A) ∨ c.toNat = 0x2028 ∨
    c.toNat = 0x2029 ∨ c.toNat = 0x202F ∨ c.toNat = 0x205F ∨
    c.toNat = 0x3000 ∨ c.toNat = 0xFEFF)

/-- JavaScript `text.split("\n")` on a buffer. -/
def splitNl : List Char → List (List Char)
  | [] => [[]]
  | c :: cs =>
    if c = '\n' then [] :: splitNl cs
    else
      match splitNl cs with
      | [] => [[c]]
      | l :: ls => (c :: l) :: ls

/-- JavaScript `lines.join("\n")`. -/
def joinNl : List (List Char) → List Char
  | [] => []
  | [l] => l
  | l :: ls => l ++ '\n' :: joinNl ls

/-- `indentText` from the source: split on newlines, put two spaces in front
of every line, rejoin. -/
def indentText (t : List Char) : List Char :=
  joinNl ((splitNl t).map (fun l => ' ' :: ' ' :: l))

/-- `str.replace(/^\s\s/, "")` on a single line: drop the first two
characters when both match `\s`, otherwise leave the line unchanged. -/
def dedentLine (l : List Char) : List Char :=
  match l with
  | a :: b :: r => if jsWhitespace a && jsWhitespace b then r else a :: b :: r
  | _ => l

/-- `dedentText` from the source: split on newlines, apply the anchored
`^\s\s` deletion to every line, rejoin. -/
def dedentText (t : List Char) : List Char :=
  joinNl ((splitNl t).map dedentLine)

/-- Helper scan: index just after the last `'\n'` of the list, offset by `i`;
`acc` when the list has no newline. -/
def lineStartAux : List Char → Nat → Nat → Nat
  | [], _, acc => acc
  | c :: cs, i, acc => lineStartAux cs (i + 1) (if c = '\n' then i + 1 else acc)

/-- `beforeStart.lastIndexOf("\n") + 1` for `beforeStart = value.slice(0, pos)`
(`0` when the prefix before the caret holds no newline, since JavaScript
`lastIndexOf` returns `-1` there). -/
def lineStartOf (v : List Char) (pos : Nat) : Nat :=
  lineStartAux (v.take pos) 0 0

/-- Characters of a buffer up to (excluding) the first newline:
`s.split("\n")[0]`. -/
def takeLine : List Char → List Char
  | [] => []
  | c :: cs => if c = '\n' then [] else c :: takeLine cs

/-- `getCurrentlySelectedLine` from the source: the full text of the line
containing `selectionStart`. -/
def currentLine (v : List Char) (selStart : Nat) : List Char :=
  takeLine (v.drop (lineStartOf v selStart))

/-- The observable state of the textarea: buffer plus selection offsets. -/
structure TAState where
  value : List Char
  selectionStart : Nat
  selectionEnd : Nat
deriving DecidableEq, Repr

/-- IDL `unsigned long` conversion followed by the WHATWG clamp of a
selection offset to the buffer length `n`.  A negative JavaScript argument
wraps modulo 2^32 to at least 2^32 - 2 for the arguments this program ever
passes (they are ≥ -2), hence clamps to `n` for every realistic buffer. -/
def toU32idx (i : Int) (n : Nat) : Nat :=
  if i < 0 then n else min i.toNat n

/-- WHATWG `setSelectionRange`: clamp both offsets to the buffer length; when
the clamped end is at most the clamped start, collapse the selection at the
end. -/
def setSelectionRange (st : TAState) (s e : Int) : TAState :=
  if toU32idx e st.value.length ≤ toU32idx s st.value.length then
    { st with selectionStart := toU32idx e st.value.length,
              selectionEnd := toU32idx e st.value.length }
  else
    { st with selectionStart := toU32idx s st.value.length,
              selectionEnd := toU32idx e st.value.length }

/-- `document.execCommand("insertText", false, t)`: replace the selected
range with `t`, collapsed caret after the inserted text. -/
def insertText (st : TAState) (t : List Char) : TAState :=
  { value := st.value.take st.selectionStart ++ t ++ st.value.drop st.selectionEnd,
    selectionStart := st.selectionStart + t.length,
    selectionEnd := st.selectionStart + t.length }

/-- `handleTab` from the source. -/
def handleTab (st : TAState) (shiftKey : Bool) : TAState :=
  let original := st.value
  let start := st.selectionStart
  let fin := st.selectionEnd
  let cur := currentLine original start
  if start = fin then
    if shiftKey then
      let newStart := lineStartOf original start
      let st1 := setSelectionRange st (newStart : Int) (fin : Int)
      insertText st1 (dedentText ((original.drop newStart).take (fin - newStart)))
    else
      insertText st [' ', ' ']
  else
    let newStart := lineStartOf original start
    let st1 := setSelectionRange st (newStart : Int) (fin : Int)
    if shiftKey then
      let newText := dedentText ((original.drop newStart).take (fin - newStart))
      let st2 := insertText st1 newText
      if cur.take 2 = [' ', ' '] then
        setSelectionRange st2 ((start : Int) - 2) ((start : Int) - 2 + (newText.length : Int))
      else
        setSelectionRange st2 (start : Int) ((start : Int) + (newText.length : Int))
    else
      let newText := indentText ((original.drop newStart).take (fin - newStart))
      let st2 := insertText st1 newText
      setSelectionRange st2 ((start : Int) + 2) ((start : Int) + 2 + (newText.length : Int))

/-- The leading run matched by `/^(\s+)/` (empty when the line does not start
with whitespace). -/
def leadingWs : List Char → List Char
  | [] => []
  | c :: cs => if jsWhitespace c then c :: leadingWs cs else []

/-- `currentLine.match(/([{\[:>])$/)`: the line's last character is one of
the four block-opening trigger characters. -/
def lineEndsInTrigger (l : List Char) : Bool :=
  match l.getLast? with
  | some c => c == '{' || c == '[' || c == ':' || c == '>'
  | none => false

/-- `handleEnter` from the source. -/
def handleEnter (st : TAState) : TAState :=
  let cur := currentLine st.value st.selectionStart
  let ind := leadingWs cur
  let wanted := if lineEndsInTrigger cur then ind ++ [' ', ' '] else ind
  insertText st ('\n' :: wanted)

/-- `currentLine.match(/^\s{2,}$/)`: the whole line is two or more whitespace
characters. -/
def isAllWs2 (l : List Char) : Bool :=
  decide (2 ≤ l.length) && l.all jsWhitespace

/-- `handleBracketClose` from the source. -/
def handleBracketClose (st : TAState) : TAState :=
  let cur := currentLine st.value st.selectionStart
  let st1 :=
    if st.selectionStart = st.selectionEnd ∧ isAllWs2 cur = true then
      setSelectionRange st ((st.selectionStart : Int) - 2) (st.selectionEnd : Int)
    else st
  insertText st1 ['}']

/-- The key events the engine handles (`handleKeyDown` dispatch). -/
inductive KeyEvent where
  | tab (shiftKey : Bool)
  | enter
  | closeBrace
deriving DecidableEq, Repr

/-- The `handleKeyDown` dispatch of the source, as the EditEngine facade. -/
def applyEvent (ev : KeyEvent) (st : TAState) : TAState :=
  match ev with
  | .tab shiftKey => handleTab st shiftKey
  | .enter => handleEnter st
  | .closeBrace => handleBracketClose st

/-- A selection is valid for its buffer:
`0 ≤ start ≤ end ≤ length(value)`. -/
def ValidSel (st : TAState) : Prop :=
  st.selectionStart ≤ st.selectionEnd ∧ st.selectionEnd ≤ st.value.length

instance (st : TAState) : Decidable (ValidSel st) := by
  unfold ValidSel; infer_instance

/-- The indentation string the Enter command inserts after the newline, as a
function of the buffer and the caret offset. -/
def enterIndentation (v : List Char) (s : Nat) : List Char :=
  let cur := currentLine v s
  if lineEndsInTrigger cur then leadingWs cur ++ [' ', ' '] else leadingWs cur

/-- The replacement text Shift+Tab computes for a non-empty selection: the
dedent of the slice from the start of the first selected line through the
selection end. -/
def dedentSliceOf (v : List Char) (s e : Nat) : List Char :=
  dedentText ((v.drop (lineStartOf v s)).take (e - lineStartOf v s))

/-- The replacement text Tab computes for a non-empty selection: the indent
of the slice from the start of the first selected line through the selection
end. -/
def indentSliceOf (v : List Char) (s e : Nat) : List Char :=
  indentText ((v.drop (lineStartOf v s)).take (e - lineStartOf v s))

-- Sanity checks of the embedding against the spec's worked examples.
example : handleTab ⟨['a', 'b'], 1, 1⟩ false = ⟨['a', ' ', ' ', 'b'], 3, 3⟩ := by decide
example : handleTab ⟨[' ', ' '], 2, 2⟩ true = ⟨[], 0, 0⟩ := by decide
example :
    handleTab ⟨['a', '\n', 'b'], 0, 3⟩ false =
      ⟨[' ', ' ', 'a', '\n', ' ', ' ', 'b'], 2, 7⟩ := by decide
example :
    handleEnter ⟨['i', 'f', ' ', '(', 'x', ')', ' ', '{'], 8, 8⟩ =
      ⟨['i', 'f', ' ', '(', 'x', ')', ' ', '{', '\n', ' ', ' '], 11, 11⟩ := by decide
example :
    handleEnter ⟨[' ', ' ', 'x'], 3, 3⟩ =
      ⟨[' ', ' ', 'x', '\n', ' ', ' '], 6, 6⟩ := by decide
example :
    handleBracketClose ⟨[' ', ' ', ' ', ' '], 4, 4⟩ =
      ⟨[' ', ' ', '}'], 3, 3⟩ := by decide

-- ## Structural lemmas about `splitNl` and `joinNl`

theorem splitNl_ne_nil (t : List Char) : splitNl t ≠ [] := by
  induction t with
  | nil => simp [splitNl]
  | cons c cs ih =>
    simp only [splitNl]
    split
    · simp
    · split <;> simp

theorem no_nl_of_mem_splitNl (t : List Char) : ∀ l ∈ splitNl t, '\n' ∉ l := by
  induction t with
  | nil =>
    intro l hl
    simp [splitNl] at hl
    simp [hl]
  | cons c cs ih =>
    intro l hl
    simp only [splitNl] at hl
    by_cases hc : c = '\n'
    · rw [if_pos hc] at hl
      rcases List.mem_cons.mp hl with h | h
      · simp [h]
      · exact ih l h
    · rw [if_neg hc] at hl
      cases hsp : splitNl cs with
      | nil => exact absurd hsp (splitNl_ne_nil cs)
      | cons m ms =>
        rw [hsp] at hl
        rcases List.mem_cons.mp hl with h | h
        · subst h
          intro hmem
          rcases List.mem_cons.mp hmem with h' | h'
          · exact hc h'.symm
          · exact ih m (hsp ▸ List.mem_cons_self m ms) h'
        · exact ih l (hsp ▸ List.mem_cons_of_mem m h)

theorem joinNl_splitNl (t : List Char) : joinNl (splitNl t) = t := by
  induction t with
  | nil => rfl
  | cons c cs ih =>
    simp only [splitNl]
    by_cases hc : c = '\n'
    · subst hc
      rw [if_pos rfl]
      cases hsp : splitNl cs with
      | nil => exact absurd hsp (splitNl_ne_nil cs)
      | cons m ms =>
        rw [hsp] at ih
        simp [joinNl, ih]
    · rw [if_neg hc]
      cases hsp : splitNl cs with
      | nil => exact absurd hsp (splitNl_ne_nil cs)
      | cons m ms =>
        rw [hsp] at ih
        cases ms with
        | nil =>
          simp only [joinNl] at ih ⊢
          rw [ih]
        | cons m2 ms2 =>
          simp only [joinNl, List.cons_append] at ih ⊢
          rw [ih]

theorem splitNl_no_nl (l : List Char) (h : '\n' ∉ l) : splitNl l = [l] := by
  induction l with
  | nil => rfl
  | cons c cs ih =>
    have hc : c ≠ '\n' := fun e => h (by simp [e])
    have hcs : '\n' ∉ cs := fun m => h (List.mem_cons_of_mem _ m)
    simp only [splitNl, if_neg hc, ih hcs]

theorem splitNl_append_nl (l r : List Char) (h : '\n' ∉ l) :
    splitNl (l ++ '\n' :: r) = l :: splitNl r := by
  induction l with
  | nil => simp [splitNl]
  | cons c cs ih =>
    have hc : c ≠ '\n' := fun e => h (by simp [e])
    have hcs : '\n' ∉ cs := fun m => h (List.mem_cons_of_mem _ m)
    simp only [List.cons_append, splitNl, if_neg hc, List.append_eq, ih hcs]

theorem splitNl_joinNl (ls : List (List Char)) (hne : ls ≠ [])
    (h : ∀ l ∈ ls, '\n' ∉ l) : splitNl (joinNl ls) = ls := by
  induction ls with
  | nil => exact absurd rfl hne
  | cons l ls ih =>
    cases ls with
    | nil => simpa [joinNl] using splitNl_no_nl l (h l (by simp))
    | cons l2 ls2 =>
      simp only [joinNl]
      rw [splitNl_append_nl l _ (h l (by simp)),
        ih (by simp) (fun m hm => h m (List.mem_cons_of_mem _ hm))]

theorem splitNl_indentText (t : List Char) :
    splitNl (indentText t) = (splitNl t).map (fun l => ' ' :: ' ' :: l) := by
  unfold indentText
  refine splitNl_joinNl _ ?_ ?_
  · simp [splitNl_ne_nil t]
  · intro l hl
    obtain ⟨m, hm, rfl⟩ := List.mem_map.mp hl
    intro hmem
    rcases List.mem_cons.mp hmem with h' | h'
    · exact absurd h' (by decide)
    · rcases List.mem_cons.mp h' with h'' | h''
      · exact absurd h'' (by decide)
      · exact no_nl_of_mem_splitNl t m hm h''

theorem dedentLine_eq (a b : Char) (r : List Char) :
    dedentLine (a :: b :: r)
      = if jsWhitespace a && jsWhitespace b then r else a :: b :: r := rfl

theorem no_nl_dedentLine (l : List Char) (h : '\n' ∉ l) : '\n' ∉ dedentLine l := by
  match l with
  | [] => exact h
  | [a] => exact h
  | a :: b :: r =>
    rw [dedentLine_eq]
    by_cases hw : (jsWhitespace a && jsWhitespace b) = true
    · rw [if_pos hw]
      exact fun m => h (List.mem_cons_of_mem a (List.mem_cons_of_mem b m))
    · rw [if_neg hw]
      exact h

theorem splitNl_dedentText (t : List Char) :
    splitNl (dedentText t) = (splitNl t).map dedentLine := by
  unfold dedentText
  refine splitNl_joinNl _ ?_ ?_
  · simp [splitNl_ne_nil t]
  · intro l hl
    obtain ⟨m, hm, rfl⟩ := List.mem_map.mp hl
    exact no_nl_dedentLine m (no_nl_of_mem_splitNl t m hm)

theorem joinNl_map_indent_length (ls : List (List Char)) :
    (joinNl (ls.map (fun l => ' ' :: ' ' :: l))).length
      = (joinNl ls).length + 2 * ls.length := by
  induction ls with
  | nil => rfl
  | cons l ls ih =>
    cases ls with
    | nil => simp [joinNl]
    | cons l2 ls2 =>
      simp only [List.map_cons, joinNl, List.length_append, List.length_cons] at *
      omega

theorem indentText_length (t : List Char) :
    (indentText t).length = t.length + 2 * (splitNl t).length := by
  unfold indentText
  rw [joinNl_map_indent_length, joinNl_splitNl]

theorem splitNl_length_pos (t : List Char) : 1 ≤ (splitNl t).length := by
  cases h : splitNl t with
  | nil => exact absurd h (splitNl_ne_nil t)
  | cons _ _ => simp

-- ## Evaluation lemmas for the textarea primitives

theorem toU32idx_le (i : Int) (n : Nat) : toU32idx i n ≤ n := by
  unfold toU32idx
  split
  · exact le_refl n
  · exact min_le_right _ _

theorem valid_setSelectionRange (st : TAState) (a b : Int) :
    ValidSel (setSelectionRange st a b) := by
  have hb := toU32idx_le b st.value.length
  unfold setSelectionRange
  split
  · exact ⟨le_refl _, hb⟩
  · next h => exact ⟨le_of_lt (not_le.mp h), hb⟩

theorem valid_insertText (st : TAState) (t : List Char) (h : ValidSel st) :
    ValidSel (insertText st t) := by
  obtain ⟨h1, h2⟩ := h
  unfold insertText ValidSel
  simp only [List.length_append, List.length_take, List.length_drop]
  rw [min_eq_left (h1.trans h2)]
  omega

-- ## The claims

/-- C1: for every buffer and every valid input selection
(`0 ≤ start ≤ end ≤ length(buffer)`), the result of applying any of the
three commands (Tab with or without shift, Enter, CloseBrace) has a
selection satisfying `0 ≤ start ≤ end ≤ length(newBuffer)`. -/
theorem c1_selection_invariant (ev : KeyEvent) (st : TAState) (h : ValidSel st) :
    ValidSel (applyEvent ev st) := by
  cases ev with
  | tab shiftKey =>
    show ValidSel (handleTab st shiftKey)
    simp only [handleTab]
    split
    · split
      · exact valid_insertText _ _ (valid_setSelectionRange _ _ _)
      · exact valid_insertText _ _ h
    · split
      · split
        · exact valid_setSelectionRange _ _ _
        · exact valid_setSelectionRange _ _ _
      · exact valid_setSelectionRange _ _ _
  | enter =>
    exact valid_insertText _ _ h
  | closeBrace =>
    show ValidSel (handleBracketClose st)
    simp only [handleBracketClose]
    split
    · exact valid_insertText _ _ (valid_setSelectionRange _ _ _)
    · exact valid_insertText _ _ h

theorem c1_witness :
    ValidSel ⟨['a', '\n', 'b'], 0, 3⟩
      ∧ ValidSel (applyEvent (.tab false) ⟨['a', '\n', 'b'], 0, 3⟩) :=
  ⟨by decide, c1_selection_invariant (.tab false) ⟨['a', '\n', 'b'], 0, 3⟩ (by decide)⟩

/-- C4: `dedentText` acts independently on each newline-separated line; on a
line it strips exactly the first two characters when both match `\s` and
leaves the line unchanged otherwise — in particular a line with exactly one
leading space is not modified, and a line with two or more leading spaces
has exactly two characters removed. -/
theorem c4_dedent_narrow (t : List Char) :
    splitNl (dedentText t) = (splitNl t).map dedentLine
    ∧ (∀ a b r, jsWhitespace a = true → jsWhitespace b = true →
        dedentLine (a :: b :: r) = r)
    ∧ (∀ a b r, ¬(jsWhitespace a = true ∧ jsWhitespace b = true) →
        dedentLine (a :: b :: r) = a :: b :: r)
    ∧ (∀ c r, jsWhitespace c = false → dedentLine (' ' :: c :: r) = ' ' :: c :: r)
    ∧ dedentLine [' '] = [' ']
    ∧ (∀ r, dedentLine (' ' :: ' ' :: r) = r) := by
  refine ⟨splitNl_dedentText t, ?_, ?_, ?_, rfl, ?_⟩
  · intro a b r ha hb
    rw [dedentLine_eq, if_pos (by rw [ha, hb]; rfl)]
  · intro a b r hab
    have hw : ¬((jsWhitespace a && jsWhitespace b) = true) :=
      fun hw => hab (Bool.and_eq_true _ _ ▸ hw)
    rw [dedentLine_eq, if_neg hw]
  · intro c r hc
    rw [dedentLine_eq, if_neg (by simp [hc])]
  · intro r
    rw [dedentLine_eq, if_pos (by decide)]

theorem c4_witness :
    dedentLine ['\t', '\t', 'a'] = ['a']
      ∧ dedentLine [' ', 'x', 'y'] = [' ', 'x', 'y'] :=
  ⟨(c4_dedent_narrow []).2.1 '\t' '\t' ['a'] (by decide) (by decide),
   (c4_dedent_narrow []).2.2.2.1 'x' ['y'] (by decide)⟩

/-- C7: indenting a block of text and then dedenting it restores the
original text (this holds for every text, so in particular for every text
singled out by the claim). -/
theorem c7_indent_dedent_roundtrip (t : List Char) :
    dedentText (indentText t) = t := by
  unfold dedentText
  rw [splitNl_indentText, List.map_map]
  have hfun : (dedentLine ∘ fun l : List Char => ' ' :: ' ' :: l) = id := by
    funext l
    show dedentLine (' ' :: ' ' :: l) = l
    rw [dedentLine_eq, if_pos (by decide)]
  rw [hfun, List.map_id, joinNl_splitNl]

/-- C9: `indentText` splits its input on newlines, puts exactly two space
characters in front of every resulting line — uniformly, so an empty line
becomes two spaces — and rejoins with newlines. -/
theorem c9_indent_uniform (t : List Char) :
    splitNl (indentText t) = (splitNl t).map (fun l => ' ' :: ' ' :: l) :=
  splitNl_indentText t

/-- C8: Tab without shift on a collapsed caret inserts exactly two spaces at
the caret and moves the caret forward by 2; in particular on buffer `"ab"`
with caret `{1,1}` it produces `"a  b"` with selection `{3,3}`. -/
theorem c8_tab_collapsed (v : List Char) (p : Nat) :
    handleTab ⟨v, p, p⟩ false
        = ⟨v.take p ++ ' ' :: ' ' :: v.drop p, p + 2, p + 2⟩
    ∧ handleTab ⟨['a', 'b'], 1, 1⟩ false = ⟨['a', ' ', ' ', 'b'], 3, 3⟩ := by
  constructor
  · simp [handleTab, insertText]
  · decide

/-- C5: Enter inserts a newline followed by the computed indentation at the
caret, replacing any selected range; the indentation is the leading
whitespace run of the current line (empty if none), with two extra spaces
appended when the current line's last character is one of `{`, `[`, `:`,
`>`; the new caret is the insertion point plus `1 + length(indentation)`. -/
theorem c5_enter (st : TAState) :
    handleEnter st =
      ⟨st.value.take st.selectionStart
          ++ '\n' :: (leadingWs (currentLine st.value st.selectionStart)
            ++ (if lineEndsInTrigger (currentLine st.value st.selectionStart) = true
                then [' ', ' '] else []))
          ++ st.value.drop st.selectionEnd,
        st.selectionStart + (1
          + (leadingWs (currentLine st.value st.selectionStart)
            ++ (if lineEndsInTrigger (currentLine st.value st.selectionStart) = true
                then [' ', ' '] else [])).length),
        st.selectionStart + (1
          + (leadingWs (currentLine st.value st.selectionStart)
            ++ (if lineEndsInTrigger (currentLine st.value st.selectionStart) = true
                then [' ', ' '] else [])).length)⟩ := by
  by_cases htr : lineEndsInTrigger (currentLine st.value st.selectionStart) = true
  · simp [handleEnter, insertText, htr, List.length_append]
    omega
  · simp [handleEnter, insertText, htr, List.length_append]
    omega

/-- C10: the indentation the Enter command inserts is a function of the
entire text of the line containing `selectionStart`, independent of the
caret's position within that line: two carets with the same line start
receive the same inserted text, and the command inserts exactly
`"\n" ++ enterIndentation`. -/
theorem c10_enter_caret_independent (v : List Char) (s1 s2 e : Nat)
    (h : lineStartOf v s1 = lineStartOf v s2) :
    handleEnter ⟨v, s1, e⟩ = insertText ⟨v, s1, e⟩ ('\n' :: enterIndentation v s1)
    ∧ enterIndentation v s1 = enterIndentation v s2 := by
  constructor
  · simp only [handleEnter, enterIndentation]
  · unfold enterIndentation currentLine
    rw [h]

theorem c10_witness :
    lineStartOf ['x', '\n', ' ', ' ', 'a', '{'] 2
        = lineStartOf ['x', '\n', ' ', ' ', 'a', '{'] 6
    ∧ enterIndentation ['x', '\n', ' ', ' ', 'a', '{'] 2
        = enterIndentation ['x', '\n', ' ', ' ', 'a', '{'] 6 :=
  ⟨by decide,
   (c10_enter_caret_independent ['x', '\n', ' ', ' ', 'a', '{'] 2 6 0 (by decide)).2⟩

-- ## Precise evaluation of setSelectionRange and lineStartOf

theorem toU32idx_nat (a n : Nat) (h : a ≤ n) : toU32idx (a : Int) n = a := by
  unfold toU32idx
  rw [if_neg (by omega : ¬((a : Int) < 0))]
  simp only [Int.toNat_natCast]
  exact min_eq_left h

theorem toU32idx_neg (i : Int) (n : Nat) (h : i < 0) : toU32idx i n = n := by
  unfold toU32idx
  rw [if_pos h]

theorem setSelectionRange_nat (st : TAState) (a b : Nat) (h1 : a ≤ b)
    (h2 : b ≤ st.value.length) :
    setSelectionRange st (a : Int) (b : Int)
      = { st with selectionStart := a, selectionEnd := b } := by
  unfold setSelectionRange
  rw [toU32idx_nat a _ (h1.trans h2), toU32idx_nat b _ h2]
  split
  · next h => rw [le_antisymm h1 h]
  · rfl

theorem setSelectionRange_clampEnd (st : TAState) (a b : Nat) (h1 : a ≤ b)
    (h2 : a ≤ st.value.length) :
    setSelectionRange st (a : Int) (b : Int)
      = { st with selectionStart := a,
                  selectionEnd := min b st.value.length } := by
  unfold setSelectionRange
  rw [toU32idx_nat a _ h2]
  have hb : toU32idx (b : Int) st.value.length = min b st.value.length := by
    unfold toU32idx
    rw [if_neg (by omega : ¬((b : Int) < 0))]
    simp only [Int.toNat_natCast]
  rw [hb]
  split
  · next h => rw [← le_antisymm (le_min h1 h2) h]
  · rfl

theorem setSelectionRange_negStart (st : TAState) (a : Int) (b : Nat)
    (ha : a < 0) (hb : b ≤ st.value.length) :
    setSelectionRange st a (b : Int)
      = { st with selectionStart := b, selectionEnd := b } := by
  unfold setSelectionRange
  rw [toU32idx_neg a _ ha, toU32idx_nat b _ hb]
  rw [if_pos hb]

theorem lineStartAux_le (l : List Char) :
    ∀ i acc, acc ≤ i → lineStartAux l i acc ≤ i + l.length := by
  induction l with
  | nil =>
    intro i acc h
    simpa [lineStartAux] using h
  | cons c cs ih =>
    intro i acc h
    simp only [lineStartAux]
    calc lineStartAux cs (i + 1) (if c = '\n' then i + 1 else acc)
        ≤ (i + 1) + cs.length := ih (i + 1) _ (by split <;> omega)
      _ = i + (c :: cs).length := by simp [List.length_cons]; omega

theorem lineStartOf_le (v : List Char) (p : Nat) :
    lineStartOf v p ≤ min p v.length := by
  have h := lineStartAux_le (v.take p) 0 0 (le_refl 0)
  simpa [lineStartOf, List.length_take] using h

/-- C6 (counterexample to the claim as stated): on buffer `"  "` with the
collapsed caret at `{0,0}` the trigger condition holds (caret collapsed,
line entirely whitespace of length ≥ 2), yet no two-character range before
the caret exists to replace: the selection start cannot move back by 2, the
`unsigned long`/clamp semantics collapse the adjusted selection at the
caret, and `"}"` is inserted at the unadjusted caret — the buffer grows from
2 to 3 characters, while replacing a width-2 range with `"}"` would leave 1. -/
theorem c6_counterexample :
    (⟨[' ', ' '], 0, 0⟩ : TAState).selectionStart
        = (⟨[' ', ' '], 0, 0⟩ : TAState).selectionEnd
    ∧ isAllWs2 (currentLine [' ', ' '] 0) = true
    ∧ handleBracketClose ⟨[' ', ' '], 0, 0⟩ = ⟨['}', ' ', ' '], 1, 1⟩
    ∧ (handleBracketClose ⟨[' ', ' '], 0, 0⟩).value.length ≠ 2 - 2 + 1 := by
  decide

/-- C6 (amended): with a valid selection, typing `}` with a collapsed caret
on a line consisting entirely of two-or-more whitespace characters AND with
caret offset at least 2 first moves the selection start back by exactly 2
(regardless of indentation depth) and inserts `"}"` replacing that range,
leaving the caret at insertion point + 1; in every other case — including
the trigger situation with caret offset 0 or 1, where the DOM clamps the
negative start and collapses the selection — `"}"` is inserted at the
unadjusted selection. -/
theorem c6_bracket_amended (v : List Char) (s e : Nat) (hse : s ≤ e)
    (hel : e ≤ v.length) :
    handleBracketClose ⟨v, s, e⟩ =
      if s = e ∧ isAllWs2 (currentLine v s) = true ∧ 2 ≤ s then
        ⟨v.take (s - 2) ++ '}' :: v.drop e, s - 1, s - 1⟩
      else
        ⟨v.take s ++ '}' :: v.drop e, s + 1, s + 1⟩ := by
  simp only [handleBracketClose]
  by_cases hcond : s = e ∧ isAllWs2 (currentLine v s) = true
  · rw [if_pos hcond]
    obtain ⟨hse', hws⟩ := hcond
    subst hse'
    by_cases h2 : 2 ≤ s
    · rw [if_pos ⟨rfl, hws, h2⟩]
      have hq : ((s : Int) - 2) = (((s - 2 : Nat)) : Int) := by omega
      rw [hq, setSelectionRange_nat ⟨v, s, s⟩ (s - 2) s (by omega) hel]
      simp only [insertText]
      have : s - 2 + 1 = s - 1 := by omega
      simp [this]
    · rw [if_neg (by tauto)]
      have hneg : ((s : Int) - 2) < 0 := by omega
      rw [setSelectionRange_negStart ⟨v, s, s⟩ _ s hneg hel]
      simp [insertText]
  · rw [if_neg hcond, if_neg (by tauto)]
    simp [insertText]

theorem c6_witness :
    handleBracketClose ⟨[' ', ' ', ' ', ' '], 4, 4⟩ = ⟨[' ', ' ', '}'], 3, 3⟩ := by
  have h := c6_bracket_amended [' ', ' ', ' ', ' '] 4 4 (by decide) (by decide)
  rw [h]
  decide

/-- C2 (counterexample to the claim as stated): buffer `"  ab"`, selection
`{3,4}`.  The current line begins with two spaces, the dedented replacement
is `"ab"` (length 2), so the claim predicts the final selection
`(1, 1 + 2) = (1, 3)`; but the new buffer is `"ab"` of length 2, and the DOM
clamp pins the selection end to 2. -/
theorem c2_counterexample :
    (currentLine [' ', ' ', 'a', 'b'] 3).take 2 = [' ', ' ']
    ∧ handleTab ⟨[' ', ' ', 'a', 'b'], 3, 4⟩ true = ⟨['a', 'b'], 1, 2⟩
    ∧ (handleTab ⟨[' ', ' ', 'a', 'b'], 3, 4⟩ true).selectionEnd
        ≠ 3 - 2 + (dedentSliceOf [' ', ' ', 'a', 'b'] 3 4).length := by
  decide

/-- C2 (amended): for a non-empty selection, Shift+Tab replaces the range
from the start of the first selected line through the original end with its
dedent, and the final selection is the claimed one — `(start - 2,
start - 2 + length(dedented))` when the original current line began with two
spaces, `(start, start + length(dedented))` otherwise — provided the claimed
offsets fit the new buffer (`2 ≤ start` in the compensation case and the
claimed end offset at most the new buffer's length); otherwise the DOM
`setSelectionRange` clamp shortens or collapses them. -/
theorem c2_shift_tab_amended (v : List Char) (s e : Nat)
    (hse : s < e) (hel : e ≤ v.length)
    (hA : (currentLine v s).take 2 = [' ', ' '] →
      2 ≤ s ∧ s - 2 + (dedentSliceOf v s e).length
        ≤ lineStartOf v s + (dedentSliceOf v s e).length + (v.length - e))
    (hB : ¬((currentLine v s).take 2 = [' ', ' ']) →
      s + (dedentSliceOf v s e).length
        ≤ lineStartOf v s + (dedentSliceOf v s e).length + (v.length - e)) :
    handleTab ⟨v, s, e⟩ true =
      if (currentLine v s).take 2 = [' ', ' '] then
        ⟨v.take (lineStartOf v s) ++ dedentSliceOf v s e ++ v.drop e,
          s - 2, s - 2 + (dedentSliceOf v s e).length⟩
      else
        ⟨v.take (lineStartOf v s) ++ dedentSliceOf v s e ++ v.drop e,
          s, s + (dedentSliceOf v s e).length⟩ := by
  have hmin := lineStartOf_le v s
  have hsl : s ≤ v.length := le_of_lt (lt_of_lt_of_le hse hel)
  have hns : lineStartOf v s ≤ s := le_trans hmin (min_le_left _ _)
  simp only [dedentSliceOf] at hA hB ⊢
  simp only [handleTab]
  rw [if_neg (Nat.ne_of_lt hse), if_pos trivial,
    setSelectionRange_nat ⟨v, s, e⟩ (lineStartOf v s) e (by omega) hel]
  simp only [insertText]
  have hlen : (v.take (lineStartOf v s)
        ++ dedentText ((v.drop (lineStartOf v s)).take (e - lineStartOf v s))
        ++ v.drop e).length
      = lineStartOf v s
        + (dedentText ((v.drop (lineStartOf v s)).take (e - lineStartOf v s))).length
        + (v.length - e) := by
    simp only [List.length_append, List.length_take, List.length_drop]
    rw [min_eq_left (le_trans hns hsl)]
  by_cases hcur : (currentLine v s).take 2 = [' ', ' ']
  · rw [if_pos hcur, if_pos hcur]
    obtain ⟨h2, hbound⟩ := hA hcur
    have hq1 : ((s : Int) - 2) = (((s - 2 : Nat)) : Int) := by omega
    have hq2 : (((s - 2 : Nat)) : Int)
          + ((dedentText ((v.drop (lineStartOf v s)).take (e - lineStartOf v s))).length : Int)
        = (((s - 2
          + (dedentText ((v.drop (lineStartOf v s)).take (e - lineStartOf v s))).length : Nat)) : Int) := by
      omega
    rw [hq1, hq2,
      setSelectionRange_nat _ _ _ (by omega) (hbound.trans (le_of_eq hlen.symm))]
  · rw [if_neg hcur, if_neg hcur]
    have hbound := hB hcur
    have hq3 : ((s : Int)
          + ((dedentText ((v.drop (lineStartOf v s)).take (e - lineStartOf v s))).length : Int))
        = (((s
          + (dedentText ((v.drop (lineStartOf v s)).take (e - lineStartOf v s))).length : Nat)) : Int) := by
      omega
    rw [hq3,
      setSelectionRange_nat _ _ _ (by omega) (hbound.trans (le_of_eq hlen.symm))]

theorem c2_witness :
    handleTab ⟨[' ', ' ', 'a', 'b', '\n', 'c', 'd'], 2, 5⟩ true
      = ⟨['a', 'b', '\n', 'c', 'd'], 0, 3⟩ := by
  have h := c2_shift_tab_amended [' ', ' ', 'a', 'b', '\n', 'c', 'd'] 2 5
    (by decide) (by decide) (by decide) (by decide)
  rw [h]
  decide

/-- C3 (counterexample to the claim as stated): on the claim's own example
`apply(Tab(false), "a\nb", {0,3})` the buffer becomes `"  a\n  b"` but the
final selection is `(2, 7)`: the code's target end `start + 2 + length("  a\n  b") = 9`
exceeds the new buffer length 7 and is clamped by the DOM, and the selection
does not cover the full inserted block (which starts at offset 0). -/
theorem c3_counterexample :
    handleTab ⟨['a', '\n', 'b'], 0, 3⟩ false
        = ⟨[' ', ' ', 'a', '\n', ' ', ' ', 'b'], 2, 7⟩
    ∧ (handleTab ⟨['a', '\n', 'b'], 0, 3⟩ false).selectionEnd
        ≠ 0 + 2 + (indentSliceOf ['a', '\n', 'b'] 0 3).length
    ∧ (handleTab ⟨['a', '\n', 'b'], 0, 3⟩ false).selectionStart ≠ 0 := by
  decide

/-- C3 (amended): for a non-empty selection, Tab without shift replaces the
range from the beginning of the first selected line through the original end
with that slice indented (every line gains a two-space front), the new
selection starts 2 characters after the original caret start, and its end is
`start + 2 + length(inserted)` clamped by the DOM to the new buffer length
(the unclamped value always overshoots the end of the inserted text, so in
the claim's example the selection is `(2, 7)`, not the full inserted
block). -/
theorem c3_tab_selection_amended (v : List Char) (s e : Nat)
    (hse : s < e) (hel : e ≤ v.length) :
    handleTab ⟨v, s, e⟩ false =
      ⟨v.take (lineStartOf v s) ++ indentSliceOf v s e ++ v.drop e,
        s + 2,
        min (s + 2 + (indentSliceOf v s e).length)
          (v.take (lineStartOf v s) ++ indentSliceOf v s e ++ v.drop e).length⟩ := by
  have hmin := lineStartOf_le v s
  have hsl : s ≤ v.length := le_of_lt (lt_of_lt_of_le hse hel)
  have hns : lineStartOf v s ≤ s := le_trans hmin (min_le_left _ _)
  simp only [indentSliceOf]
  simp only [handleTab]
  rw [if_neg (Nat.ne_of_lt hse), if_neg Bool.false_ne_true,
    setSelectionRange_nat ⟨v, s, e⟩ (lineStartOf v s) e (by omega) hel]
  simp only [insertText]
  have hslice : ((v.drop (lineStartOf v s)).take (e - lineStartOf v s)).length
      = e - lineStartOf v s := by
    simp only [List.length_take, List.length_drop]
    omega
  have hk := indentText_length ((v.drop (lineStartOf v s)).take (e - lineStartOf v s))
  have hpos := splitNl_length_pos ((v.drop (lineStartOf v s)).take (e - lineStartOf v s))
  have hlen : (v.take (lineStartOf v s)
        ++ indentText ((v.drop (lineStartOf v s)).take (e - lineStartOf v s))
        ++ v.drop e).length
      = lineStartOf v s
        + (indentText ((v.drop (lineStartOf v s)).take (e - lineStartOf v s))).length
        + (v.length - e) := by
    simp only [List.length_append, List.length_take, List.length_drop]
    rw [min_eq_left (le_trans hns hsl)]
  have hcl : s + 2 ≤ (v.take (lineStartOf v s)
      ++ indentText ((v.drop (lineStartOf v s)).take (e - lineStartOf v s))
      ++ v.drop e).length := by
    rw [hlen]
    omega
  have hq : ((s : Int) + 2) = (((s + 2 : Nat)) : Int) := by omega
  have hq2 : (((s + 2 : Nat)) : Int)
        + ((indentText ((v.drop (lineStartOf v s)).take (e - lineStartOf v s))).length : Int)
      = (((s + 2
        + (indentText ((v.drop (lineStartOf v s)).take (e - lineStartOf v s))).length : Nat)) : Int) := by
    omega
  rw [hq, hq2, setSelectionRange_clampEnd _ _ _ (by omega) hcl]

theorem c3_witness :
    handleTab ⟨['a', '\n', 'b'], 0, 3⟩ false
      = ⟨[' ', ' ', 'a', '\n', ' ', ' ', 'b'], 2, 7⟩ := by
  have h := c3_tab_selection_amended ['a', '\n', 'b'] 0 3 (by decide) (by decide)
  rw [h]
  decide
